import Mathlib

/-!
Verification development for the extraction-quality evaluation engine of
`pdf-excel-extractor`: a shallow embedding of `src/evaluation/bleu_scorer.py`
and `src/evaluation/ngram_inspector.py`, together with theorems settling the
behavioural claims about them.

Modelling conventions:
* Python `str` values are Lean `String`s; functions that accept Python `None`
  take `Option String`.  Text-level helpers (`lower`, `strip`, `split`) are
  re-implemented character-by-character on `List Char` (ASCII reading of
  Python's whitespace/word classes, which covers every input in this
  development).
* Python `float` arithmetic is modelled exactly: rational intermediate values
  are `ℚ`, and the transcendental step `exp(Σ w·ln p)` of the BLEU geometric
  mean is modelled over `ℝ` with `Real.exp`/`Real.log`.
* `collections.Counter` over n-grams is a `Multiset`; `Counter & Counter`
  (clipped counts) is multiset intersection and `Counter - Counter` keeps the
  positive differences.
* `datetime.datetime.now().isoformat()` is modelled by passing the ambient
  clock value `now : String` as an explicit argument.
-/

namespace BleuEval

/-- Python `str.lower()` (ASCII model, via `Char.toLower`). -/
def pyLower (s : String) : String :=
  String.mk (s.toList.map Char.toLower)

/-- Python `str.strip()`: remove whitespace from both ends. -/
def pyStrip (s : String) : String :=
  String.mk (((s.toList.dropWhile Char.isWhitespace).reverse.dropWhile
    Char.isWhitespace).reverse)

/-- Worker for Python `str.split()` (split on whitespace runs, no empty
pieces): `acc` holds the characters of the current word, reversed. -/
def wsGo : List Char → List Char → List String
  | acc, [] => if acc.isEmpty then [] else [String.mk acc.reverse]
  | acc, c :: cs =>
    if c.isWhitespace then
      if acc.isEmpty then wsGo [] cs else String.mk acc.reverse :: wsGo [] cs
    else wsGo (c :: acc) cs

/-- Python `str.split()` with no arguments. -/
def pySplit (s : String) : List String :=
  wsGo [] s.toList

/-- The normalisation applied by `bleu_score` before comparison: `strip()`
when `preserve_case`, else `lower().strip()`. -/
def pyNormalize (preserve_case : Bool) (s : String) : String :=
  if preserve_case then pyStrip s else pyStrip (pyLower s)

/-- Python truthiness of an optional string: `None` and `''` are falsy. -/
def pyTruthy : Option String → Bool
  | none => false
  | some s => s != ""

/-- The n-gram list `[tuple(toks[i:i+n]) for i in range(len(toks) - n + 1)]`
(for `n = 0` the inspector's `ngrams` guard returns `[]`; the scorer only
uses `n ≥ 1`). -/
def ngramsOf (toks : List String) (n : ℕ) : List (List String) :=
  if n = 0 then []
  else (List.range (toks.length + 1 - n)).map (fun i => (toks.drop i).take n)

/-- Clipped-count matching: `sum((a & b).values())` for the `Counter`s of the
two n-gram lists, i.e. the size of the multiset intersection. -/
def clippedCard (a b : List (List String)) : ℕ :=
  Multiset.card ((a : Multiset (List String)) ∩ (b : Multiset (List String)))

/-- Per-n precision of `bleu_score` before the smoothing floor:
`matches / total_hyp` with `matches = sum((hyp_ngrams & ref_ngrams).values())`
and `total_hyp = sum(hyp_ngrams.values())`, `0.0` when `total_hyp = 0`. -/
def bleuPrecision (refT hypT : List String) (n : ℕ) : ℚ :=
  let refNg := ngramsOf refT n
  let hypNg := ngramsOf hypT n
  let matchCount := clippedCard hypNg refNg
  if 0 < hypNg.length then (matchCount : ℚ) / (hypNg.length : ℚ) else 0

/-- The `scores` list of `bleu_score`: for `n = 1 .. min(n_gram_max, |ref|,
|hyp|)` the per-n precision, floored to `smoothing` when it is zero. -/
def smoothedPrecisions (refT hypT : List String) (n_gram_max : ℕ)
    (smoothing : ℚ) : List ℚ :=
  let max_n := min n_gram_max (min refT.length hypT.length)
  (List.range max_n).map (fun i =>
    let p := bleuPrecision refT hypT (i + 1)
    if 0 < p then p else smoothing)

/-- Weight handling of `bleu_score`: `None` gives uniform weights over the
`k` available orders; otherwise the vector is truncated to `k` entries and
renormalised when its sum is positive, with uniform fallback otherwise. -/
def resolveWeights (weights : Option (List ℚ)) (k : ℕ) : List ℚ :=
  match weights with
  | none => List.replicate k (1 / (k : ℚ))
  | some ws =>
    let w_raw := ws.take k
    let s_w := w_raw.sum
    if 0 < s_w then w_raw.map (· / s_w)
    else List.replicate k (1 / (k : ℚ))

/-- Number of n-gram orders available to `bleu_score`, i.e. the length of its
`scores` list: `min(n_gram_max, len(ref), len(hyp))` over the normalised and
whitespace-split texts. -/
def availOrders (reference hypothesis : String) (n_gram_max : ℕ)
    (preserve_case : Bool) : ℕ :=
  min n_gram_max
    (min (pySplit (pyNormalize preserve_case reference)).length
      (pySplit (pyNormalize preserve_case hypothesis)).length)

/-- Body of `bleu_score` once both arguments are known to be actual strings:
normalisation, exact-match shortcut, empty-token check, smoothed per-n
precisions, weighted geometric mean `exp(Σ wᵢ·ln pᵢ)`, brevity penalty, and
the final clamp to `[0, 1]`. -/
noncomputable def bleu_core (reference hypothesis : String) (n_gram_max : ℕ)
    (weights : Option (List ℚ)) (smoothing : ℚ) (preserve_case : Bool) : ℝ :=
  let comp_ref := pyNormalize preserve_case reference
  let comp_hyp := pyNormalize preserve_case hypothesis
  if comp_ref = comp_hyp then 1
  else
    let refT := pySplit comp_ref
    let hypT := pySplit comp_hyp
    if refT.length = 0 ∨ hypT.length = 0 then 0
    else
      let scores := smoothedPrecisions refT hypT n_gram_max smoothing
      let geometric_mean : ℝ :=
        if scores = [] then 0
        else
          let w := resolveWeights weights scores.length
          let log_scores := scores.map (fun s => Real.log (s : ℝ))
          Real.exp (((w.zip log_scores).map (fun p => (p.1 : ℝ) * p.2)).sum)
      let brevity_penalty : ℝ :=
        if hypT.length = 0 then 0
        else if hypT.length < refT.length then
          Real.exp (1 - (refT.length : ℝ) / (hypT.length : ℝ))
        else 1
      let bleu := brevity_penalty * geometric_mean
      max 0 (min 1 bleu)

/-- `bleu_score(reference, hypothesis, n_gram_max=4, weights=None,
smoothing=1e-9, preserve_case=False)`: if either argument is `None`, return
`1.0` when both are falsy and `0.0` otherwise; else run the scoring body. -/
noncomputable def bleu_score (reference hypothesis : Option String)
    (n_gram_max : ℕ := 4) (weights : Option (List ℚ) := none)
    (smoothing : ℚ := 1 / 1000000000) (preserve_case : Bool := false) : ℝ :=
  match reference, hypothesis with
  | some r, some h => bleu_core r h n_gram_max weights smoothing preserve_case
  | _, _ => if pyTruthy reference || pyTruthy hypothesis then 0 else 1

/-- C7: for every non-empty string `a`, `bleu_score(a, a)` is exactly `1.0`,
through the exact-match shortcut on the normalised strings, independently of
the length or token count of `a`. -/
theorem bleu_score_self_is_one (a : String) (h : a ≠ "") :
    bleu_score (some a) (some a) = 1 := by
  simp [bleu_score, bleu_core]

theorem bleu_score_self_is_one_witness :
    ("Invoice No: 12345" : String) ≠ "" ∧
      bleu_score (some "Invoice No: 12345") (some "Invoice No: 12345") = 1 :=
  ⟨by decide, bleu_score_self_is_one "Invoice No: 12345" (by decide)⟩

theorem length_smoothedPrecisions (refT hypT : List String) (n_gram_max : ℕ)
    (smoothing : ℚ) :
    (smoothedPrecisions refT hypT n_gram_max smoothing).length =
      min n_gram_max (min refT.length hypT.length) := by
  simp [smoothedPrecisions]

theorem resolveWeights_nonpos {ws : List ℚ} {k : ℕ}
    (h : (ws.take k).sum ≤ 0) :
    resolveWeights (some ws) k = resolveWeights none k := by
  simp only [resolveWeights]
  rw [if_neg (not_lt.mpr h)]

theorem resolveWeights_take (ws : List ℚ) (k : ℕ) :
    resolveWeights (some (ws.take k)) k = resolveWeights (some ws) k := by
  simp [resolveWeights, List.take_take]

theorem bleu_core_weights_congr (reference hypothesis : String)
    (n_gram_max : ℕ) (smoothing : ℚ) (preserve_case : Bool)
    (w₁ w₂ : Option (List ℚ))
    (hw : resolveWeights w₁ (availOrders reference hypothesis n_gram_max
            preserve_case) =
          resolveWeights w₂ (availOrders reference hypothesis n_gram_max
            preserve_case)) :
    bleu_core reference hypothesis n_gram_max w₁ smoothing preserve_case =
      bleu_core reference hypothesis n_gram_max w₂ smoothing preserve_case := by
  have hk : (smoothedPrecisions (pySplit (pyNormalize preserve_case reference))
      (pySplit (pyNormalize preserve_case hypothesis)) n_gram_max
      smoothing).length =
      availOrders reference hypothesis n_gram_max preserve_case := by
    rw [length_smoothedPrecisions]; rfl
  simp only [bleu_core]
  split_ifs <;> first | rfl | rw [hk, hw]

/-- C5 (amended): a caller-supplied weight vector falls back to uniform
weights only when the sum of its first `availOrders` entries is non-positive;
independently, the vector is always truncated to the available order count
(and then renormalised) — a too-short vector therefore weights only the
orders it covers instead of being replaced by uniform weights. -/
theorem bleu_score_weight_handling (reference hypothesis : String)
    (n_gram_max : ℕ) (ws : List ℚ) (smoothing : ℚ) (preserve_case : Bool) :
    ((ws.take (availOrders reference hypothesis n_gram_max preserve_case)).sum
        ≤ 0 →
      bleu_score (some reference) (some hypothesis) n_gram_max (some ws)
          smoothing preserve_case =
        bleu_score (some reference) (some hypothesis) n_gram_max none
          smoothing preserve_case) ∧
    bleu_score (some reference) (some hypothesis) n_gram_max (some ws)
        smoothing preserve_case =
      bleu_score (some reference) (some hypothesis) n_gram_max
        (some (ws.take (availOrders reference hypothesis n_gram_max
          preserve_case))) smoothing preserve_case := by
  constructor
  · intro h
    exact bleu_core_weights_congr _ _ _ _ _ _ _ (resolveWeights_nonpos h)
  · exact bleu_core_weights_congr _ _ _ _ _ _ _
      (resolveWeights_take ws _).symm

theorem bleu_score_weight_handling_witness :
    ((([-1] : List ℚ).take (availOrders "a b" "b a" 4 false)).sum ≤ 0) ∧
    bleu_score (some "a b") (some "b a") 4 (some [-1]) (1 / 1000000000) false =
      bleu_score (some "a b") (some "b a") 4 none (1 / 1000000000) false ∧
    bleu_score (some "a b") (some "b a") 4 (some [5, 5, 5]) (1 / 1000000000)
        false =
      bleu_score (some "a b") (some "b a") 4
        (some (([5, 5, 5] : List ℚ).take (availOrders "a b" "b a" 4 false)))
        (1 / 1000000000) false :=
  ⟨by rw [show availOrders "a b" "b a" 4 false = 2 from by decide]; norm_num,
    (bleu_score_weight_handling "a b" "b a" 4 [-1] (1 / 1000000000) false).1
      (by rw [show availOrders "a b" "b a" 4 false = 2 from by decide]
          norm_num),
    (bleu_score_weight_handling "a b" "b a" 4 [5, 5, 5] (1 / 1000000000)
      false).2⟩

/-- C5 (counterexample): the weight vector `[1.0]` is malformed for the three
available n-gram orders of `"a b c"` vs `"a c b"` (wrong length), yet
`bleu_score` does not fall back to uniform weights: with `[1.0]` the score is
`1.0` (only the unigram precision is weighted) while uniform weights give a
score strictly below `1.0`. -/
theorem bleu_score_malformed_weights_differ :
    bleu_score (some "a b c") (some "a c b") 4 (some [1]) (1 / 1000000000)
        false ≠
      bleu_score (some "a b c") (some "a c b") 4 none (1 / 1000000000)
        false := by
  have hne : ¬ (pyNormalize false "a b c" = pyNormalize false "a c b") := by
    decide
  have hr : pySplit (pyNormalize false "a b c") = ["a", "b", "c"] := by decide
  have hh : pySplit (pyNormalize false "a c b") = ["a", "c", "b"] := by decide
  have hp1 : bleuPrecision ["a", "b", "c"] ["a", "c", "b"] 1 = 1 := by
    rw [bleuPrecision,
      show clippedCard (ngramsOf ["a", "c", "b"] 1)
        (ngramsOf ["a", "b", "c"] 1) = 3 from by decide,
      show (ngramsOf ["a", "c", "b"] 1).length = 3 from by decide]
    norm_num
  have hp2 : bleuPrecision ["a", "b", "c"] ["a", "c", "b"] 2 = 0 := by
    rw [bleuPrecision,
      show clippedCard (ngramsOf ["a", "c", "b"] 2)
        (ngramsOf ["a", "b", "c"] 2) = 0 from by decide,
      show (ngramsOf ["a", "c", "b"] 2).length = 2 from by decide]
    norm_num
  have hp3 : bleuPrecision ["a", "b", "c"] ["a", "c", "b"] 3 = 0 := by
    rw [bleuPrecision,
      show clippedCard (ngramsOf ["a", "c", "b"] 3)
        (ngramsOf ["a", "b", "c"] 3) = 0 from by decide,
      show (ngramsOf ["a", "c", "b"] 3).length = 1 from by decide]
    norm_num
  have hsp : smoothedPrecisions ["a", "b", "c"] ["a", "c", "b"] 4
      (1 / 1000000000) = [1, 1 / 1000000000, 1 / 1000000000] := by
    rw [smoothedPrecisions]
    norm_num [show (3 : ℕ) + 1 = 4 from rfl, List.range_succ, hp1, hp2, hp3]
  have hw1 : resolveWeights (some [1]) 3 = [1] := by
    rw [resolveWeights]
    norm_num
  have hw2 : resolveWeights none 3 = [1 / 3, 1 / 3, 1 / 3] := by
    rw [resolveWeights]
    norm_num [List.replicate_succ]
  have hlog : Real.log ((1 : ℝ) / 1000000000) < 0 :=
    Real.log_neg (by norm_num) (by norm_num)
  have h1 : bleu_score (some "a b c") (some "a c b") 4 (some [1])
      (1 / 1000000000) false = 1 := by
    show bleu_core "a b c" "a c b" 4 (some [1]) (1 / 1000000000) false = 1
    simp only [bleu_core, hr, hh, hsp]
    rw [if_neg hne]
    norm_num [hw1, Real.log_one]
    rw [if_neg (List.cons_ne_nil _ _)]
    norm_num
  have h2 : bleu_score (some "a b c") (some "a c b") 4 none
      (1 / 1000000000) false < 1 := by
    show bleu_core "a b c" "a c b" 4 none (1 / 1000000000) false < 1
    simp only [bleu_core, hr, hh, hsp]
    rw [if_neg hne]
    norm_num [hw2, Real.log_one]
    rw [if_neg (List.cons_ne_nil _ _)]
    exact Real.exp_lt_one_iff.mpr (by linarith)
  rw [h1]
  intro h
  rw [← h] at h2
  exact lt_irrefl _ h2

/-! ### The diagnostic n-gram inspector (`src/evaluation/ngram_inspector.py`) -/

/-- Python's `\w` character class (ASCII model): letters, digits, underscore. -/
def isWordChar (c : Char) : Bool :=
  c.isAlphanum || c = '_'

/-- Worker for the inspector's tokenizer `re.findall(r"\w+|[^\w\s]", ·)`:
`acc` holds the characters of the pending word run, reversed.  A maximal run
of word characters is one token; any other non-whitespace character is a
single-character token; whitespace only separates. -/
def tokGo : List Char → List Char → List String
  | acc, [] => if acc.isEmpty then [] else [String.mk acc.reverse]
  | acc, c :: cs =>
    if isWordChar c then tokGo (c :: acc) cs
    else
      (if acc.isEmpty then [] else [String.mk acc.reverse]) ++
        (if c.isWhitespace then tokGo [] cs
         else String.mk [c] :: tokGo [] cs)

/-- `tokenize(text)`: `None` yields `[]`, otherwise the word/punctuation
tokens of `text.strip()`. -/
def tokenize : Option String → List String
  | none => []
  | some t => tokGo [] (pyStrip t).toList

/-- Underlying n-gram list of `ngram_counts(text, n)`; the Counter it builds
is the multiset of this list's elements. -/
def ngramCounts (text : String) (n : ℕ) : List (List String) :=
  ngramsOf (tokenize (some text)) n

/-- Keys of a `collections.Counter` built from `l`, in insertion order:
each distinct element once, at its first occurrence. -/
def firstOccsGo : List (List String) → List (List String) → List (List String)
  | _, [] => []
  | seen, a :: l =>
    if a ∈ seen then firstOccsGo seen l
    else a :: firstOccsGo (a :: seen) l

/-- First occurrences of the elements of `l`, in order. -/
def firstOccs (l : List (List String)) : List (List String) :=
  firstOccsGo [] l

/-- `list((cntA - cntB).items())` for the `Counter`s of `a` and `b`: the
grams of `a` (in first-seen order) whose count exceeds their count in `b`,
with the positive residual. -/
def counterSub (a b : List (List String)) : List (List String × ℕ) :=
  (firstOccs a).filterMap (fun g =>
    let c := a.count g - b.count g
    if 0 < c then some (g, c) else none)

/-- Python's stable `sorted(·, key=lambda x: -x[1])`: a stable sort by
descending count (insertion sort is extensionally equal to any stable
sort). -/
def sortDesc (l : List (List String × ℕ)) : List (List String × ℕ) :=
  List.insertionSort (fun p q => q.2 ≤ p.2) l

/-- Python `" ".join(k)`. -/
def joinSpace (g : List String) : String :=
  String.intercalate " " g

/-- The per-n entry of `compare_ngrams` (`report[n]`); the dict key
`'matches'` is rendered as `matchCount`. -/
structure NgramReport where
  matchCount : ℕ
  total_hyp : ℕ
  precision : ℚ
  distinct_ref_ngrams : ℕ
  distinct_hyp_ngrams : ℕ
  top_missing : List (String × ℕ)
  top_extra : List (String × ℕ)
deriving DecidableEq

/-- Body of one iteration of `compare_ngrams`: counts, clipped matches,
precision, and the ranked, truncated missing/extra lists. -/
def compareEntry (ref hyp : String) (n : ℕ) : NgramReport :=
  let rN := ngramCounts ref n
  let hN := ngramCounts hyp n
  let m := clippedCard rN hN
  let th := hN.length
  { matchCount := m
    total_hyp := th
    precision := if 0 < th then (m : ℚ) / (th : ℚ) else 0
    distinct_ref_ngrams := (firstOccs rN).length
    distinct_hyp_ngrams := (firstOccs hN).length
    top_missing := ((sortDesc (counterSub rN hN)).take 10).map
      (fun p => (joinSpace p.1, p.2))
    top_extra := ((sortDesc (counterSub hN rN)).take 10).map
      (fun p => (joinSpace p.1, p.2)) }

/-- `compare_ngrams(ref, hyp, n_max)`: the report maps each `n` in
`1..n_max` to its per-n statistics. -/
def compare_ngrams (ref hyp : String) (n_max : ℕ := 4) :
    List (ℕ × NgramReport) :=
  (List.range' 1 n_max).map (fun n => (n, compareEntry ref hyp n))

theorem clippedCard_comm (a b : List (List String)) :
    clippedCard a b = clippedCard b a := by
  simp [clippedCard, Multiset.inter_comm]

/-- C3 (amended): the scorer and the inspector do not share one
tokenization (whitespace split vs. word/punctuation regex), but whenever
the two tokenizations agree on both texts, the per-n precision used by
`bleu_score` before its smoothing floor (case preserved) coincides with the
precision reported by `compare_ngrams` for every order `n` — both sides use
the same clipped multiset-intersection matching. -/
theorem bleu_inspector_precision_agree (ref hyp : String)
    (h₁ : tokenize (some ref) = pySplit (pyNormalize true ref))
    (h₂ : tokenize (some hyp) = pySplit (pyNormalize true hyp)) (n : ℕ) :
    bleuPrecision (pySplit (pyNormalize true ref))
        (pySplit (pyNormalize true hyp)) n =
      (compareEntry ref hyp n).precision := by
  simp only [bleuPrecision, compareEntry, ngramCounts, h₁, h₂]
  rw [clippedCard_comm]

theorem bleu_inspector_precision_agree_witness :
    tokenize (some "a b") = pySplit (pyNormalize true "a b") ∧
    tokenize (some "b c") = pySplit (pyNormalize true "b c") ∧
    bleuPrecision (pySplit (pyNormalize true "a b"))
        (pySplit (pyNormalize true "b c")) 1 =
      (compareEntry "a b" "b c" 1).precision :=
  ⟨by decide, by decide,
    bleu_inspector_precision_agree "a b" "b c" (by decide) (by decide) 1⟩

/-- C3 (counterexample): for `ref = "a,"`, `hyp = "a b"` and `n = 1` (which
is within `1..effective_n`), the BLEU scorer's pre-smoothing unigram
precision with case preserved is `0`, while the inspector reports `1/2` for
the same two texts — the two components do not share one tokenization. -/
theorem bleu_inspector_precision_differ :
    1 ≤ availOrders "a," "a b" 4 true ∧
    (1, compareEntry "a," "a b" 1) ∈ compare_ngrams "a," "a b" 4 ∧
    bleuPrecision (pySplit (pyNormalize true "a,"))
        (pySplit (pyNormalize true "a b")) 1 = 0 ∧
    (compareEntry "a," "a b" 1).precision = 1 / 2 ∧
    ((0 : ℚ) ≠ 1 / 2) := by
  refine ⟨by decide, List.mem_map.mpr ⟨1, by decide, rfl⟩, ?_, ?_,
    by norm_num⟩
  · rw [show pySplit (pyNormalize true "a,") = ["a,"] from by decide,
      show pySplit (pyNormalize true "a b") = ["a", "b"] from by decide,
      bleuPrecision,
      show clippedCard (ngramsOf ["a", "b"] 1) (ngramsOf ["a,"] 1) = 0 from
        by decide,
      show (ngramsOf ["a", "b"] 1).length = 2 from by decide]
    norm_num
  · simp only [compareEntry, ngramCounts]
    rw [show tokenize (some "a,") = ["a", ","] from by decide,
      show tokenize (some "a b") = ["a", "b"] from by decide,
      show clippedCard (ngramsOf ["a", ","] 1) (ngramsOf ["a", "b"] 1) = 1
        from by decide,
      show (ngramsOf ["a", "b"] 1).length = 2 from by decide]
    norm_num

theorem mem_firstOccsGo {a : List String} :
    ∀ {l seen : List (List String)},
      a ∈ firstOccsGo seen l ↔ a ∈ l ∧ a ∉ seen := by
  intro l
  induction l with
  | nil => intro seen; simp [firstOccsGo]
  | cons b l ih =>
    intro seen
    simp only [firstOccsGo]
    by_cases hb : b ∈ seen
    · rw [if_pos hb, ih]
      constructor
      · rintro ⟨hl, hs⟩
        exact ⟨List.mem_cons_of_mem _ hl, hs⟩
      · rintro ⟨hbl, hs⟩
        rcases List.mem_cons.mp hbl with rfl | hl
        · exact absurd hb hs
        · exact ⟨hl, hs⟩
    · rw [if_neg hb]
      simp only [List.mem_cons, ih]
      constructor
      · rintro (rfl | ⟨hl, hs⟩)
        · exact ⟨Or.inl rfl, hb⟩
        · exact ⟨Or.inr hl, fun h => hs (Or.inr h)⟩
      · rintro ⟨rfl | hl, hs⟩
        · exact Or.inl rfl
        · by_cases hab : a = b
          · exact Or.inl hab
          · exact Or.inr ⟨hl, by simp [List.mem_cons, hab, hs]⟩

theorem mem_firstOccs {a : List String} {l : List (List String)} :
    a ∈ firstOccs l ↔ a ∈ l := by
  simp [firstOccs, mem_firstOccsGo]

theorem nodup_firstOccsGo :
    ∀ (l seen : List (List String)), (firstOccsGo seen l).Nodup := by
  intro l
  induction l with
  | nil => intro seen; simp [firstOccsGo]
  | cons b l ih =>
    intro seen
    simp only [firstOccsGo]
    by_cases hb : b ∈ seen
    · rw [if_pos hb]; exact ih seen
    · rw [if_neg hb]
      refine List.nodup_cons.mpr ⟨fun hmem => ?_, ih _⟩
      exact (mem_firstOccsGo.mp hmem).2 (List.mem_cons_self _ _)

theorem nodup_firstOccs (l : List (List String)) : (firstOccs l).Nodup :=
  nodup_firstOccsGo l []

theorem mem_counterSub {a b : List (List String)} {g : List String} {c : ℕ} :
    (g, c) ∈ counterSub a b ↔
      g ∈ a ∧ c = a.count g - b.count g ∧ 0 < c := by
  simp only [counterSub, List.mem_filterMap]
  constructor
  · rintro ⟨g', hg', hf⟩
    by_cases h : 0 < a.count g' - b.count g'
    · rw [if_pos h] at hf
      obtain ⟨rfl, rfl⟩ := Prod.mk.injEq .. ▸ Option.some.inj hf
      exact ⟨mem_firstOccs.mp hg', rfl, h⟩
    · rw [if_neg h] at hf
      exact absurd hf (Option.some_ne_none _).symm
  · rintro ⟨hg, rfl, hpos⟩
    exact ⟨g, mem_firstOccs.mpr hg, by rw [if_pos hpos]⟩

theorem counterSub_keys_sublist (a b : List (List String)) :
    ((counterSub a b).map Prod.fst).Sublist (firstOccs a) := by
  rw [counterSub]
  induction firstOccs a with
  | nil => simp
  | cons g l ih =>
    rw [List.filterMap_cons]
    by_cases h : 0 < a.count g - b.count g
    · rw [if_pos h]
      exact List.Sublist.cons₂ _ ih
    · rw [if_neg h]
      exact ih.cons _

theorem nodup_counterSub_keys (a b : List (List String)) :
    ((counterSub a b).map Prod.fst).Nodup :=
  (nodup_firstOccs a).sublist (counterSub_keys_sublist a b)

instance : IsTotal (List String × ℕ) (fun p q => q.2 ≤ p.2) :=
  ⟨fun a b => le_total b.2 a.2⟩

instance : IsTrans (List String × ℕ) (fun p q => q.2 ≤ p.2) :=
  ⟨fun _ _ _ h₁ h₂ => le_trans h₂ h₁⟩

theorem sortDesc_perm (l : List (List String × ℕ)) : (sortDesc l).Perm l :=
  List.perm_insertionSort _ l

theorem sortDesc_sorted (l : List (List String × ℕ)) :
    List.Sorted (fun p q => q.2 ≤ p.2) (sortDesc l) :=
  List.sorted_insertionSort _ l

theorem filter_orderedInsert (c : ℕ) (x : List String × ℕ) :
    ∀ l : List (List String × ℕ),
      ((List.orderedInsert (fun p q => q.2 ≤ p.2) x l).filter
          (fun p => p.2 == c)) =
        if x.2 = c then x :: l.filter (fun p => p.2 == c)
        else l.filter (fun p => p.2 == c) := by
  intro l
  induction l with
  | nil => by_cases hx : x.2 = c <;> simp [List.orderedInsert, hx]
  | cons b l ih =>
    simp only [List.orderedInsert]
    by_cases hrb : b.2 ≤ x.2
    · rw [if_pos hrb]
      by_cases hx : x.2 = c <;> simp [List.filter_cons, hx]
    · rw [if_neg hrb]
      have hxb : x.2 < b.2 := not_le.mp hrb
      by_cases hx : x.2 = c
      · have hbc : ¬ (b.2 = c) := by omega
        simp [List.filter_cons, hbc, ih, hx]
      · simp [List.filter_cons, ih, hx]

theorem filter_sortDesc (c : ℕ) (l : List (List String × ℕ)) :
    (sortDesc l).filter (fun p => p.2 == c) = l.filter (fun p => p.2 == c) := by
  induction l with
  | nil => rfl
  | cons a l ih =>
    simp only [sortDesc, List.insertionSort] at ih ⊢
    rw [filter_orderedInsert]
    by_cases hx : a.2 = c <;> simp [List.filter_cons, hx, ih]

/-- C8: for every reference, hypothesis and order `n`, the reporter's
per-n entry (which `compare_ngrams` returns for every `n` in `1..n_max`)
carries `top_missing`/`top_extra` that are the space-joined first ten
entries of a stable
descending-by-count sort of the residuals `reference − hypothesis` resp.
`hypothesis − reference`; hence they have length at most `10`, the sorted
residual list is a permutation of the residual items (each distinct gram
appearing once, with exactly its positive residual count `count_ref −
count_hyp` resp. `count_hyp − count_ref`), it is ordered by descending
count, and within each count value the order is exactly the first-seen
order of the residual items. -/
theorem compare_ngrams_top_lists (ref hyp : String) (n : ℕ) :
    (∀ n_max : ℕ, 1 ≤ n → n ≤ n_max →
      (n, compareEntry ref hyp n) ∈ compare_ngrams ref hyp n_max) ∧
    (compareEntry ref hyp n).top_missing =
      ((sortDesc (counterSub (ngramCounts ref n) (ngramCounts hyp n))).take
        10).map (fun p => (joinSpace p.1, p.2)) ∧
    (compareEntry ref hyp n).top_extra =
      ((sortDesc (counterSub (ngramCounts hyp n) (ngramCounts ref n))).take
        10).map (fun p => (joinSpace p.1, p.2)) ∧
    (compareEntry ref hyp n).top_missing.length ≤ 10 ∧
    (compareEntry ref hyp n).top_extra.length ≤ 10 ∧
    (sortDesc (counterSub (ngramCounts ref n) (ngramCounts hyp n))).Perm
      (counterSub (ngramCounts ref n) (ngramCounts hyp n)) ∧
    (sortDesc (counterSub (ngramCounts hyp n) (ngramCounts ref n))).Perm
      (counterSub (ngramCounts hyp n) (ngramCounts ref n)) ∧
    List.Sorted (fun p q => q.2 ≤ p.2)
      (sortDesc (counterSub (ngramCounts ref n) (ngramCounts hyp n))) ∧
    List.Sorted (fun p q => q.2 ≤ p.2)
      (sortDesc (counterSub (ngramCounts hyp n) (ngramCounts ref n))) ∧
    (∀ g c, (g, c) ∈ counterSub (ngramCounts ref n) (ngramCounts hyp n) ↔
      g ∈ ngramCounts ref n ∧
        c = (ngramCounts ref n).count g - (ngramCounts hyp n).count g ∧
        0 < c) ∧
    (∀ g c, (g, c) ∈ counterSub (ngramCounts hyp n) (ngramCounts ref n) ↔
      g ∈ ngramCounts hyp n ∧
        c = (ngramCounts hyp n).count g - (ngramCounts ref n).count g ∧
        0 < c) ∧
    ((counterSub (ngramCounts ref n) (ngramCounts hyp n)).map
      Prod.fst).Nodup ∧
    ((counterSub (ngramCounts hyp n) (ngramCounts ref n)).map
      Prod.fst).Nodup ∧
    (∀ c, (sortDesc (counterSub (ngramCounts ref n)
        (ngramCounts hyp n))).filter (fun p => p.2 == c) =
      (counterSub (ngramCounts ref n) (ngramCounts hyp n)).filter
        (fun p => p.2 == c)) ∧
    (∀ c, (sortDesc (counterSub (ngramCounts hyp n)
        (ngramCounts ref n))).filter (fun p => p.2 == c) =
      (counterSub (ngramCounts hyp n) (ngramCounts ref n)).filter
        (fun p => p.2 == c)) := by
  refine ⟨?_, rfl, rfl, ?_, ?_, sortDesc_perm _, sortDesc_perm _,
    sortDesc_sorted _, sortDesc_sorted _,
    fun g c => mem_counterSub, fun g c => mem_counterSub,
    nodup_counterSub_keys _ _, nodup_counterSub_keys _ _,
    fun c => filter_sortDesc c _, fun c => filter_sortDesc c _⟩
  · intro n_max h1 h2
    exact List.mem_map.mpr ⟨n, List.mem_range'_1.mpr ⟨h1, by omega⟩, rfl⟩
  · simp only [compareEntry, List.length_map, List.length_take]
    exact min_le_left _ _
  · simp only [compareEntry, List.length_map, List.length_take]
    exact min_le_left _ _

theorem compare_ngrams_top_lists_witness :
    ((1, compareEntry "ACME Corp" "ACME Corp Inc" 1) ∈
      compare_ngrams "ACME Corp" "ACME Corp Inc" 4) ∧
    (compareEntry "ACME Corp" "ACME Corp Inc" 1).top_missing.length ≤ 10 ∧
    (compareEntry "ACME Corp" "ACME Corp Inc" 1).top_extra.length ≤ 10 :=
  ⟨(compare_ngrams_top_lists "ACME Corp" "ACME Corp Inc" 1).1 4
      (by decide) (by decide),
    (compare_ngrams_top_lists "ACME Corp" "ACME Corp Inc" 1).2.2.2.1,
    (compare_ngrams_top_lists "ACME Corp" "ACME Corp Inc" 1).2.2.2.2.1⟩

/-! ### Character-sequence similarity:
`difflib.SequenceMatcher(None, a, b).ratio()` as used by the evaluator's
`seq_ratio` field.  `isjunk = None`, so the junk set is empty and only the
`autojunk` popularity rule (for `len(b) ≥ 200`) affects `b2j`. -/

/-- Occurrence positions `b2j[c]` in `b`, ascending; when `len(b) ≥ 200`,
characters occurring more than `len(b) // 100 + 1` times are "popular" and
removed. -/
def seqB2j (bl : List Char) (c : Char) : List ℕ :=
  if 200 ≤ bl.length ∧ bl.length / 100 + 1 < bl.count c then []
  else (List.range bl.length).filter (fun j => bl.get? j == some c)

/-- One row `i` of the `find_longest_match` dynamic program: walk
`b2j[a[i]]` restricted to `[blo, bhi)` (the `continue`/`break` of the source
over the ascending index list), building the new run-length table `newj2len`
and updating the best block when a longer run appears. -/
def flmRow (al bl : List Char) (blo bhi : ℕ) (i : ℕ) (j2len : ℕ → ℕ)
    (best : ℕ × ℕ × ℕ) : (ℕ → ℕ) × (ℕ × ℕ × ℕ) :=
  let js := match al.get? i with
    | some c => (seqB2j bl c).filter (fun j => decide (blo ≤ j ∧ j < bhi))
    | none => []
  js.foldl
    (fun acc j =>
      let k := (if j = 0 then 0 else j2len (j - 1)) + 1
      let nf := fun j' => if j' = j then k else acc.1 j'
      let nb := if acc.2.2.2 < k then (i + 1 - k, j + 1 - k, k) else acc.2
      (nf, nb))
    ((fun _ => 0), best)

/-- The dynamic-programming phase of `find_longest_match` over rows
`i ∈ range(alo, ahi)`, starting from best block `(alo, blo, 0)` and an empty
run-length table. -/
def flmDP (al bl : List Char) (alo ahi blo bhi : ℕ) : ℕ × ℕ × ℕ :=
  ((List.range' alo (ahi - alo)).foldl
    (fun acc i => flmRow al bl blo bhi i acc.1 acc.2)
    ((fun _ : ℕ => (0 : ℕ)), (alo, blo, 0))).2

/-- The leftward extension loop of `find_longest_match` (`while besti > alo
and bestj > blo and a[besti-1] == b[bestj-1]`; the junk-set conditions are
vacuous for `isjunk = None`). -/
def extendLeft (al bl : List Char) (alo blo : ℕ) : ℕ × ℕ × ℕ → ℕ × ℕ × ℕ
  | (bi, bj, k) =>
    if h : alo < bi ∧ blo < bj ∧ (al.get? (bi - 1)).isSome ∧
        al.get? (bi - 1) = bl.get? (bj - 1) then
      extendLeft al bl alo blo (bi - 1, bj - 1, k + 1)
    else (bi, bj, k)
termination_by p => p.1
decreasing_by
  have h1 := h.1
  omega

/-- The rightward extension loop of `find_longest_match` (`while
besti+bestsize < ahi and bestj+bestsize < bhi and a[besti+bestsize] ==
b[bestj+bestsize]`). -/
def extendRight (al bl : List Char) (ahi bhi : ℕ) : ℕ × ℕ × ℕ → ℕ × ℕ × ℕ
  | (bi, bj, k) =>
    if h : bi + k < ahi ∧ bj + k < bhi ∧ (al.get? (bi + k)).isSome ∧
        al.get? (bi + k) = bl.get? (bj + k) then
      extendRight al bl ahi bhi (bi, bj, k + 1)
    else (bi, bj, k)
termination_by p => ahi - (p.1 + p.2.2)
decreasing_by
  have h1 := h.1
  omega

/-- `find_longest_match(alo, ahi, blo, bhi)` with empty junk set: dynamic
program, then the two character-extension loops (the junk-adjacent loops
never run since the junk set is empty). -/
def flm (al bl : List Char) (alo ahi blo bhi : ℕ) : ℕ × ℕ × ℕ :=
  extendRight al bl ahi bhi
    (extendLeft al bl alo blo (flmDP al bl alo ahi blo bhi))

/-- Invariant of `find_longest_match`'s result: either no match was found
(the initial `(alo, blo, 0)`), or the block is non-trivial and lies inside
the requested ranges strictly enough for the matching-blocks recursion to
shrink. -/
def FlmInv (alo ahi blo bhi : ℕ) (t : ℕ × ℕ × ℕ) : Prop :=
  t = (alo, blo, 0) ∨
    (t.2.2 ≠ 0 ∧ t.1 < ahi ∧ t.2.1 < bhi ∧ alo < t.1 + t.2.2 ∧
      blo < t.2.1 + t.2.2 ∧ alo < ahi ∧ blo < bhi)

theorem foldl_preserves {α β : Type} (P : β → Prop) (f : β → α → β) :
    ∀ (l : List α) (b : β), P b → (∀ b a, a ∈ l → P b → P (f b a)) →
      P (l.foldl f b) := by
  intro l
  induction l with
  | nil => intro b hb _; exact hb
  | cons a l ih =>
    intro b hb hstep
    rw [List.foldl_cons]
    exact ih _ (hstep b a (List.mem_cons_self _ _) hb)
      (fun b' a' ha' => hstep b' a' (List.mem_cons_of_mem _ ha'))

theorem flmRow_inv (al bl : List Char) (blo bhi : ℕ) (i : ℕ)
    (j2len : ℕ → ℕ) (best : ℕ × ℕ × ℕ) {alo ahi : ℕ}
    (hi : alo ≤ i ∧ i < ahi) (hb : FlmInv alo ahi blo bhi best) :
    FlmInv alo ahi blo bhi (flmRow al bl blo bhi i j2len best).2 := by
  simp only [flmRow]
  apply foldl_preserves
    (P := fun acc : (ℕ → ℕ) × (ℕ × ℕ × ℕ) => FlmInv alo ahi blo bhi acc.2)
  · exact hb
  · intro acc j hj hacc
    have hjb : blo ≤ j ∧ j < bhi := by
      rcases hget : al.get? i with _ | c
      · rw [hget] at hj; cases hj
      · rw [hget] at hj
        exact of_decide_eq_true (List.mem_filter.mp hj).2
    dsimp only
    set K := (if j = 0 then 0 else j2len (j - 1)) + 1 with hK
    have hK1 : 1 ≤ K := by rw [hK]; omega
    by_cases hupd : acc.2.2.2 < K
    · rw [if_pos hupd]
      right
      dsimp only
      refine ⟨?_, ?_, ?_, ?_, ?_, ?_, ?_⟩ <;> omega
    · rw [if_neg hupd]
      exact hacc

theorem flmDP_inv (al bl : List Char) (alo ahi blo bhi : ℕ) :
    FlmInv alo ahi blo bhi (flmDP al bl alo ahi blo bhi) := by
  rw [flmDP]
  apply foldl_preserves
    (P := fun acc : (ℕ → ℕ) × (ℕ × ℕ × ℕ) => FlmInv alo ahi blo bhi acc.2)
  · exact Or.inl rfl
  · intro acc i hi hacc
    have hi' : alo ≤ i ∧ i < ahi := by
      rw [List.mem_range'_1] at hi
      omega
    exact flmRow_inv al bl blo bhi i acc.1 acc.2 hi' hacc

theorem extendLeft_inv (al bl : List Char) (alo ahi blo bhi : ℕ) :
    ∀ t : ℕ × ℕ × ℕ, FlmInv alo ahi blo bhi t →
      FlmInv alo ahi blo bhi (extendLeft al bl alo blo t)
  | (bi, bj, k), ht => by
    rw [extendLeft]
    split_ifs with h
    · refine extendLeft_inv al bl alo ahi blo bhi (bi - 1, bj - 1, k + 1) ?_
      have ha := h.1
      have hbj := h.2.1
      rcases ht with heq | hP
      · exfalso
        injection heq with h1 h2
        omega
      · obtain ⟨hk, h1, h2, h3, h4, h5, h6⟩ := hP
        dsimp only at hk h1 h2 h3 h4
        right
        dsimp only
        refine ⟨Nat.succ_ne_zero _, ?_, ?_, ?_, ?_, h5, h6⟩ <;> omega
    · exact ht
termination_by t => t.1
decreasing_by
  have h1 := h.1
  omega

theorem extendRight_inv (al bl : List Char) (alo ahi blo bhi : ℕ) :
    ∀ t : ℕ × ℕ × ℕ, FlmInv alo ahi blo bhi t →
      FlmInv alo ahi blo bhi (extendRight al bl ahi bhi t)
  | (bi, bj, k), ht => by
    rw [extendRight]
    split_ifs with h
    · refine extendRight_inv al bl alo ahi blo bhi (bi, bj, k + 1) ?_
      have h1 := h.1
      have h2 := h.2.1
      rcases ht with heq | hP
      · injection heq with hbi hrest
        injection hrest with hbj hk
        right
        dsimp only
        refine ⟨Nat.succ_ne_zero _, ?_, ?_, ?_, ?_, ?_, ?_⟩ <;> omega
      · obtain ⟨hk, hh1, hh2, hh3, hh4, hh5, hh6⟩ := hP
        dsimp only at hk hh1 hh2 hh3 hh4
        right
        dsimp only
        refine ⟨Nat.succ_ne_zero _, ?_, ?_, ?_, ?_, hh5, hh6⟩ <;> omega
    · exact ht
termination_by t => ahi - (t.1 + t.2.2)
decreasing_by
  have h1 := h.1
  omega

theorem flm_inv (al bl : List Char) (alo ahi blo bhi : ℕ) :
    FlmInv alo ahi blo bhi (flm al bl alo ahi blo bhi) :=
  extendRight_inv al bl alo ahi blo bhi _
    (extendLeft_inv al bl alo ahi blo bhi _ (flmDP_inv al bl alo ahi blo bhi))

/-- Total size of the matching blocks of `get_matching_blocks` restricted to
`a[alo:ahi]` × `b[blo:bhi]`: recursively, the longest match plus the totals
of the regions to its left and right (the queue order of the source does not
affect the sum). -/
def matchTotal (al bl : List Char) (alo ahi blo bhi : ℕ) : ℕ :=
  let t := flm al bl alo ahi blo bhi
  if h : t.2.2 = 0 then 0
  else
    matchTotal al bl alo t.1 blo t.2.1 + t.2.2 +
      matchTotal al bl (t.1 + t.2.2) ahi (t.2.1 + t.2.2) bhi
termination_by (ahi + bhi) - (alo + blo)
decreasing_by
  all_goals
    have hflm := flm_inv al bl alo ahi blo bhi
    rw [show flm al bl alo ahi blo bhi = t from rfl] at hflm
    rcases hflm with heq | hP
  all_goals first
    | exact absurd (by rw [heq]) h
    | (obtain ⟨hk, h1, h2, h3, h4, h5, h6⟩ := hP
       rw [show flm al bl alo ahi blo bhi = t from rfl]
       omega)

/-- `difflib.SequenceMatcher(None, a, b).ratio()`:
`2 * matches / (len(a) + len(b))`, and `1.0` when both strings are empty. -/
def seqSim (a b : String) : ℚ :=
  let al := a.toList
  let bl := b.toList
  let m := matchTotal al bl 0 al.length 0 bl.length
  if 0 < al.length + bl.length then
    (2 * m : ℚ) / ((al.length + bl.length : ℕ) : ℚ)
  else 1

/-! ### The aggregator `evaluate_extraction_quality` -/

/-- One key/value record (`Dict[str, str]`): `value = none` models a dict
with no `'value'` key, so `row.get('value', '')` is `value.getD ""` and the
truthiness test `row.get('value')` is `pyTruthy value`.  The `'key'` entry
is accessed both as `row['key']` (gold) and `row.get('key', '')`
(extracted), which agree on records that carry a key. -/
structure KVRecord where
  key : String
  value : Option String
deriving DecidableEq

/-- The gold index `{row['key']: row['value'] for row in gold if
row.get('value')}` as a lookup function: later rows with a truthy value
overwrite earlier ones (Python dict-comprehension semantics). -/
def goldDictF (g : List KVRecord) : String → Option String :=
  g.foldl
    (fun f r =>
      if pyTruthy r.value then
        fun k => if k = r.key then some (r.value.getD "") else f k
      else f)
    (fun _ => none)

/-- One entry of `field_scores`.  Python dict keys are renamed:
`'seq_ratio'` ↦ `seq_sim`, `'insertion_ratio'` ↦ `ins_frac`; the no-gold
branch omits the `'gold'` key, modelled by `gold = none`. -/
structure FieldScore where
  bleu : Option ℝ
  seq_sim : Option ℚ
  ins_frac : Option ℚ
  exact_match : Bool
  extracted : String
  gold : Option String

/-- The loop state of `evaluate_extraction_quality`: the accumulator lists
`scores`, `seq_scores`, `insertion_ratios` (here `ins_fracs`), the
`field_scores` dict, and `non_empty_count`. -/
structure EvalState where
  scores : List ℝ
  seq_scores : List ℚ
  ins_fracs : List ℚ
  field_scores : List (String × FieldScore)
  non_empty : ℕ

/-- Python dict assignment `d[k] = v`: replace in place if the key exists,
else append. -/
def dictInsert (d : List (String × FieldScore)) (k : String)
    (v : FieldScore) : List (String × FieldScore) :=
  match d with
  | [] => [(k, v)]
  | (k', v') :: rest =>
    if k' = k then (k, v) :: rest else (k', v') :: dictInsert rest k v

/-- The insertion-ratio computation of the gold branch: the total count of
`Counter(value.lower().split()) - Counter(ref.lower().split())` over the
number of hypothesis tokens (`0.0` when there are none). -/
def insertionFrac (ref value : String) : ℚ :=
  let refT := pySplit (pyLower ref)
  let hypT := pySplit (pyLower value)
  let extra := Multiset.card
    ((hypT : Multiset String) - (refT : Multiset String))
  if 0 < hypT.length then (extra : ℚ) / (hypT.length : ℚ) else 0

/-- The body of the gold-branch `for row in extracted` loop: on a gold-index
hit, compute BLEU (weights `[0.05, 0.15, 0.4, 0.4]`, case preserved),
sequence ratio and insertion ratio, append them, store the `FieldScore`
under the record's key, and count the record when its value is non-empty;
on a miss, do nothing. -/
noncomputable def goldStep (gd : String → Option String) (st : EvalState)
    (row : KVRecord) : EvalState :=
  let key := row.key
  let value := row.value.getD ""
  match gd key with
  | some ref =>
    let score := bleu_score (some ref) (some value) 4
      (some [1 / 20, 3 / 20, 2 / 5, 2 / 5]) (1 / 1000000000) true
    let sr := seqSim ref value
    let ins := insertionFrac ref value
    { scores := st.scores ++ [score]
      seq_scores := st.seq_scores ++ [sr]
      ins_fracs := st.ins_fracs ++ [ins]
      field_scores := dictInsert st.field_scores key
        ⟨some score, some sr, some ins, ref == value, value, some ref⟩
      non_empty := st.non_empty + (if value = "" then 0 else 1) }
  | none => st

/-- The body of the no-gold `for row in extracted` loop: score `1.0` for a
non-empty value and `0.0` otherwise, count non-empty values, and store a
`FieldScore` with absent BLEU/sequence/insertion entries and
`exact_match = (value != '')`. -/
noncomputable def selfStep (st : EvalState) (row : KVRecord) : EvalState :=
  let key := row.key
  let value := row.value.getD ""
  let score : ℝ := if value = "" then 0 else 1
  { scores := st.scores ++ [score]
    seq_scores := st.seq_scores
    ins_fracs := st.ins_fracs
    field_scores := dictInsert st.field_scores key
      ⟨none, none, none, value != "", value, none⟩
    non_empty := st.non_empty + (if value = "" then 0 else 1) }

/-- The initial loop state: empty accumulators. -/
def initState : EvalState :=
  ⟨[], [], [], [], 0⟩

/-- The gold branch's full pass over `extracted`. -/
noncomputable def goldPass (gd : String → Option String)
    (extracted : List KVRecord) : EvalState :=
  extracted.foldl (goldStep gd) initState

/-- The no-gold branch's full pass over `extracted`. -/
noncomputable def selfPass (extracted : List KVRecord) : EvalState :=
  extracted.foldl selfStep initState

/-- Python `max(l)` for the non-empty lists the code guards for (`[]` is
unreachable behind the `if scores:` check). -/
noncomputable def listMax : List ℝ → ℝ
  | [] => 0
  | x :: xs => xs.foldl max x

/-- Python `min(l)` for non-empty lists, as `listMax`. -/
noncomputable def listMin : List ℝ → ℝ
  | [] => 0
  | x :: xs => xs.foldl min x

/-- The returned report dictionary. -/
structure Report where
  avg_bleu : Option ℝ
  max_bleu : Option ℝ
  min_bleu : Option ℝ
  coverage : ℚ
  total_fields : ℕ
  non_empty_fields : ℕ
  field_scores : List (String × FieldScore)
  timestamp : String

/-- `evaluate_extraction_quality(extracted, gold=None)`.  `now` is the
ambient clock value `datetime.now().isoformat()` read while building the
report.  `if gold:` is the truthiness test: `None` and `[]` take the
self-consistency branch.  With gold, `if scores:` picks the aggregate
branch: empty scores give `0.0` aggregates, otherwise average, `max` and
`min` of the produced scores.  Coverage is `non_empty_count / total_fields`
(0 when there are no fields) in both branches. -/
noncomputable def evaluateExtractionQuality (now : String)
    (extracted : List KVRecord)
    (gold : Option (List KVRecord) := none) : Report :=
  if (gold.getD []).isEmpty then
    let st := selfPass extracted
    { avg_bleu := none
      max_bleu := none
      min_bleu := none
      coverage := if 0 < extracted.length then
          (st.non_empty : ℚ) / (extracted.length : ℚ)
        else 0
      total_fields := extracted.length
      non_empty_fields := st.non_empty
      field_scores := st.field_scores
      timestamp := now }
  else
    let st := goldPass (goldDictF (gold.getD [])) extracted
    if st.scores.isEmpty then
      { avg_bleu := some 0
        max_bleu := some 0
        min_bleu := some 0
        coverage := if 0 < extracted.length then
            (st.non_empty : ℚ) / (extracted.length : ℚ)
          else 0
        total_fields := extracted.length
        non_empty_fields := st.non_empty
        field_scores := st.field_scores
        timestamp := now }
    else
      { avg_bleu := some (st.scores.sum / (st.scores.length : ℝ))
        max_bleu := some (listMax st.scores)
        min_bleu := some (listMin st.scores)
        coverage := if 0 < extracted.length then
            (st.non_empty : ℚ) / (extracted.length : ℚ)
          else 0
        total_fields := extracted.length
        non_empty_fields := st.non_empty
        field_scores := st.field_scores
        timestamp := now }

theorem mem_dictInsert {d : List (String × FieldScore)} {k : String}
    {v : FieldScore} {p : String × FieldScore} :
    p ∈ dictInsert d k v → p = (k, v) ∨ p ∈ d := by
  induction d with
  | nil =>
    intro h
    rw [dictInsert] at h
    rcases List.mem_cons.mp h with rfl | h'
    · exact Or.inl rfl
    · cases h'
  | cons q rest ih =>
    obtain ⟨k', v'⟩ := q
    intro h
    rw [dictInsert] at h
    by_cases hk : k' = k
    · rw [if_pos hk] at h
      rcases List.mem_cons.mp h with rfl | hrest
      · exact Or.inl rfl
      · exact Or.inr (List.mem_cons_of_mem _ hrest)
    · rw [if_neg hk] at h
      rcases List.mem_cons.mp h with rfl | hrest
      · exact Or.inr (List.mem_cons_self _ _)
      · rcases ih hrest with h1 | h2
        · exact Or.inl h1
        · exact Or.inr (List.mem_cons_of_mem _ h2)

theorem selfFold_inv (ext : List KVRecord) :
    ∀ st : EvalState,
      (∀ p ∈ st.field_scores,
        (p.2.exact_match = true ↔ p.2.extracted ≠ "") ∧ p.2.gold = none ∧
          p.2.bleu = none) →
      ∀ p ∈ (ext.foldl selfStep st).field_scores,
        (p.2.exact_match = true ↔ p.2.extracted ≠ "") ∧ p.2.gold = none ∧
          p.2.bleu = none := by
  induction ext with
  | nil => intro st hst; exact hst
  | cons r ext ih =>
    intro st hst
    rw [List.foldl_cons]
    refine ih _ ?_
    intro p hp
    simp only [selfStep] at hp
    rcases mem_dictInsert hp with rfl | hmem
    · exact ⟨by simp [bne_iff_ne], rfl, rfl⟩
    · exact hst p hmem

/-- C9: in the no-gold branch, every stored `FieldScore` has
`exact_match = (extracted value is a non-empty string)`; no reference is
involved (its `gold` and `bleu` entries are absent), unlike the gold-mode
`exact_match`, which is raw equality with the gold value. -/
theorem selfmode_exact_match_iff_nonempty (now : String)
    (extracted : List KVRecord) :
    ∀ p ∈ (evaluateExtractionQuality now extracted none).field_scores,
      (p.2.exact_match = true ↔ p.2.extracted ≠ "") ∧ p.2.gold = none ∧
        p.2.bleu = none := by
  intro p hp
  have hfs : (evaluateExtractionQuality now extracted none).field_scores =
      (selfPass extracted).field_scores := rfl
  rw [hfs] at hp
  exact selfFold_inv extracted initState
    (fun q hq => absurd hq (List.not_mem_nil _)) p hp

theorem selfmode_exact_match_iff_nonempty_witness :
    (("a", FieldScore.mk none none none true "x" none) ∈
      (evaluateExtractionQuality "t" [⟨"a", some "x"⟩] none).field_scores) ∧
    ((FieldScore.mk none none none true "x" none).exact_match = true ↔
      (FieldScore.mk none none none true "x" none).extracted ≠ "") ∧
    (FieldScore.mk none none none true "x" none).gold = none ∧
    (FieldScore.mk none none none true "x" none).bleu = none :=
  have hm : ("a", FieldScore.mk none none none true "x" none) ∈
      (evaluateExtractionQuality "t" [⟨"a", some "x"⟩] none).field_scores := by
    rw [show (evaluateExtractionQuality "t" [⟨"a", some "x"⟩]
        none).field_scores =
      [("a", FieldScore.mk none none none true "x" none)] from rfl]
    exact List.mem_singleton_self _
  ⟨hm, selfmode_exact_match_iff_nonempty "t" [⟨"a", some "x"⟩] _ hm⟩

/-- C6 (amended): every engine operation in the embedding is a pure function
of its inputs, and `evaluate_extraction_quality`'s report depends on the
ambient clock only through its `timestamp` field: reports produced at
different times from the same records and gold agree on every other
field. -/
theorem evaluate_deterministic_up_to_timestamp (t₁ t₂ : String)
    (extracted : List KVRecord) (gold : Option (List KVRecord)) :
    { evaluateExtractionQuality t₁ extracted gold with timestamp := "" } =
      { evaluateExtractionQuality t₂ extracted gold with timestamp := "" } := by
  by_cases hg : (gold.getD []).isEmpty = true <;>
    simp only [evaluateExtractionQuality, hg, if_true, if_false,
      Bool.false_eq_true] <;>
    first
      | rfl
      | (split <;> rfl)

/-- C6 (counterexample): the report embeds `datetime.now()`, so two calls of
`evaluate_extraction_quality` with identical records and gold but made at
different times return different reports (they differ in `timestamp`). -/
theorem evaluate_depends_on_clock :
    evaluateExtractionQuality "2024-01-01T00:00:00" [] none ≠
      evaluateExtractionQuality "2024-01-02T00:00:00" [] none := by
  intro h
  have ht := congrArg Report.timestamp h
  rw [show (evaluateExtractionQuality "2024-01-01T00:00:00" []
        none).timestamp = "2024-01-01T00:00:00" from rfl,
    show (evaluateExtractionQuality "2024-01-02T00:00:00" []
        none).timestamp = "2024-01-02T00:00:00" from rfl] at ht
  exact absurd ht (by decide)

/-- C2 (amended): `avg_bleu`, `max_bleu` and `min_bleu` are computed over
only the per-field scores actually produced; all three are `None` exactly
when no gold is supplied (`None` or `[]`); when a non-empty gold list is
supplied and no extracted key hits the gold index, all three are `0.0`, not
`None`; when scores were produced, they are their average, maximum and
minimum. -/
theorem bleu_aggregates_by_branch (now : String)
    (extracted : List KVRecord) :
    ((evaluateExtractionQuality now extracted none).avg_bleu = none ∧
      (evaluateExtractionQuality now extracted none).max_bleu = none ∧
      (evaluateExtractionQuality now extracted none).min_bleu = none) ∧
    ((evaluateExtractionQuality now extracted (some [])).avg_bleu = none ∧
      (evaluateExtractionQuality now extracted (some [])).max_bleu = none ∧
      (evaluateExtractionQuality now extracted (some [])).min_bleu = none) ∧
    ∀ g : List KVRecord, g ≠ [] →
      ((goldPass (goldDictF g) extracted).scores = [] →
        (evaluateExtractionQuality now extracted (some g)).avg_bleu =
            some 0 ∧
        (evaluateExtractionQuality now extracted (some g)).max_bleu =
            some 0 ∧
        (evaluateExtractionQuality now extracted (some g)).min_bleu =
            some 0) ∧
      ((goldPass (goldDictF g) extracted).scores ≠ [] →
        (evaluateExtractionQuality now extracted (some g)).avg_bleu =
          some ((goldPass (goldDictF g) extracted).scores.sum /
            ((goldPass (goldDictF g) extracted).scores.length : ℝ)) ∧
        (evaluateExtractionQuality now extracted (some g)).max_bleu =
          some (listMax (goldPass (goldDictF g) extracted).scores) ∧
        (evaluateExtractionQuality now extracted (some g)).min_bleu =
          some (listMin (goldPass (goldDictF g) extracted).scores)) := by
  refine ⟨⟨rfl, rfl, rfl⟩, ⟨rfl, rfl, rfl⟩, ?_⟩
  intro g hg
  obtain ⟨a, l, rfl⟩ := List.exists_cons_of_ne_nil hg
  constructor
  · intro hs
    have hse : (goldPass (goldDictF (a :: l)) extracted).scores.isEmpty =
        true := by rw [hs]; rfl
    simp only [evaluateExtractionQuality, Option.getD_some,
      List.isEmpty_cons, Bool.false_eq_true, if_false, hse, if_true]
    exact ⟨trivial, trivial, trivial⟩
  · intro hs
    have hse : (goldPass (goldDictF (a :: l)) extracted).scores.isEmpty =
        false := by
      rcases hx : (goldPass (goldDictF (a :: l)) extracted).scores with
        _ | ⟨x, xs⟩
      · exact absurd hx hs
      · rfl
    simp only [evaluateExtractionQuality, Option.getD_some,
      List.isEmpty_cons, Bool.false_eq_true, if_false, hse]
    exact ⟨trivial, trivial, trivial⟩

theorem bleu_aggregates_by_branch_witness :
    ([(⟨"k", some "v"⟩ : KVRecord)] ≠ []) ∧
    (goldPass (goldDictF [⟨"k", some "v"⟩]) []).scores = [] ∧
    (evaluateExtractionQuality "t" [] (some [⟨"k", some "v"⟩])).avg_bleu =
      some 0 ∧
    (evaluateExtractionQuality "t" [] (some [⟨"k", some "v"⟩])).max_bleu =
      some 0 ∧
    (evaluateExtractionQuality "t" [] (some [⟨"k", some "v"⟩])).min_bleu =
      some 0 :=
  have h1 : [(⟨"k", some "v"⟩ : KVRecord)] ≠ [] := by simp
  have h2 : (goldPass (goldDictF [⟨"k", some "v"⟩]) []).scores = [] := rfl
  have h3 := ((bleu_aggregates_by_branch "t" []).2.2 [⟨"k", some "v"⟩] h1).1 h2
  ⟨h1, h2, h3.1, h3.2.1, h3.2.2⟩

/-- C2 (counterexample): gold is supplied but no extracted key has a gold
match, yet the aggregates are `0.0`, not `None`. -/
theorem avg_bleu_not_none_on_all_misses :
    (evaluateExtractionQuality "t" [⟨"a", some "x"⟩]
      (some [⟨"b", some "y"⟩])).avg_bleu = some 0 ∧
    (evaluateExtractionQuality "t" [⟨"a", some "x"⟩]
      (some [⟨"b", some "y"⟩])).max_bleu = some 0 ∧
    (evaluateExtractionQuality "t" [⟨"a", some "x"⟩]
      (some [⟨"b", some "y"⟩])).min_bleu = some 0 ∧
    (some (0 : ℝ) ≠ (none : Option ℝ)) :=
  ⟨rfl, rfl, rfl, by simp⟩

/-- C1: with gold supplied, a record whose non-empty value misses the gold
index is not counted by `non_empty_fields`, so `coverage` is not the
fraction of records with a non-empty extracted value: here 1 of 1 records
has the non-empty value `"x"` but the report says `coverage = 0`,
`non_empty_fields = 0`. -/
theorem coverage_ignores_unmatched_nonempty_fields :
    (evaluateExtractionQuality "t" [⟨"a", some "x"⟩]
      (some [⟨"b", some "y"⟩])).total_fields = 1 ∧
    (evaluateExtractionQuality "t" [⟨"a", some "x"⟩]
      (some [⟨"b", some "y"⟩])).non_empty_fields = 0 ∧
    (evaluateExtractionQuality "t" [⟨"a", some "x"⟩]
      (some [⟨"b", some "y"⟩])).coverage = 0 ∧
    (([⟨"a", some "x"⟩] : List KVRecord).countP
      (fun r => r.value.getD "" != "")) = 1 ∧
    ((1 : ℚ) / 1 ≠ 0) := by
  refine ⟨rfl, rfl, ?_, by decide, by norm_num⟩
  rw [show (evaluateExtractionQuality "t" [⟨"a", some "x"⟩]
      (some [⟨"b", some "y"⟩])).coverage =
    ((0 : ℕ) : ℚ) / ((1 : ℕ) : ℚ) from rfl]
  norm_num

theorem goldDictF_foldl (k : String) :
    ∀ (g : List KVRecord) (f : String → Option String),
      (g.foldl
        (fun f r =>
          if pyTruthy r.value then
            fun k => if k = r.key then some (r.value.getD "") else f k
          else f) f) k =
      match (g.filter (fun r => pyTruthy r.value)).reverse.find?
          (fun r => r.key == k) with
      | some r => some (r.value.getD "")
      | none => f k := by
  intro g
  induction g with
  | nil => intro f; rfl
  | cons r g ih =>
    intro f
    rw [List.foldl_cons, List.filter_cons]
    by_cases ht : pyTruthy r.value = true
    · rw [if_pos ht, if_pos ht, List.reverse_cons, List.find?_append, ih]
      cases hf : (g.filter (fun r => pyTruthy r.value)).reverse.find?
          (fun r => r.key == k) with
      | some r' => rfl
      | none =>
        simp only [Option.none_or]
        by_cases hkk : r.key = k
        · have hfind : List.find? (fun r : KVRecord => r.key == k) [r] =
              some r := by simp [hkk]
          rw [hfind, if_pos hkk.symm]
        · have hfind : List.find? (fun r : KVRecord => r.key == k) [r] =
              none := by simp [hkk]
          rw [hfind, if_neg (show ¬ k = r.key from fun he => hkk he.symm)]
    · rw [if_neg ht, if_neg ht, ih]

/-- C4 (amended): the gold index is built by a dict comprehension, so on
duplicate keys the LAST gold record bearing the key (among those with a
truthy value) wins: for every gold list and key, the lookup
`evaluate_extraction_quality` compares against returns the value of the
last such record, not the first. -/
theorem goldDictF_last_match (g : List KVRecord) (k : String) :
    goldDictF g k =
      ((g.filter (fun r => pyTruthy r.value)).reverse.find?
        (fun r => r.key == k)).map (fun r => r.value.getD "") := by
  rw [goldDictF, goldDictF_foldl]
  cases hf : (g.filter (fun r => pyTruthy r.value)).reverse.find?
      (fun r => r.key == k) <;> simp

/-- C4 (counterexample): with two gold records sharing key `"k"`, the
extracted record is compared against the SECOND gold value `"v2"`, not the
first (`"v1"`) as the claim states: the stored `FieldScore.gold` is
`"v2"`. -/
theorem gold_duplicate_key_last_wins :
    goldDictF [⟨"k", some "v1"⟩, ⟨"k", some "v2"⟩] "k" = some "v2" ∧
    (([⟨"k", some "v1"⟩, ⟨"k", some "v2"⟩] : List KVRecord).find?
      (fun r => r.key == "k")).map (fun r => r.value.getD "") = some "v1" ∧
    ((evaluateExtractionQuality "t" [⟨"k", some "x"⟩]
      (some [⟨"k", some "v1"⟩, ⟨"k", some "v2"⟩])).field_scores.map
        (fun p => (p.1, p.2.gold))) = [("k", some "v2")] ∧
    ("v2" : String) ≠ "v1" :=
  ⟨by decide, by decide, rfl, by decide⟩

theorem goldDictF_none_aux (k : String) :
    ∀ (g : List KVRecord) (f : String → Option String),
      (∀ r ∈ g, r.key = k → pyTruthy r.value = false) → f k = none →
      (g.foldl
        (fun f r =>
          if pyTruthy r.value then
            fun k => if k = r.key then some (r.value.getD "") else f k
          else f) f) k = none := by
  intro g
  induction g with
  | nil => intro f _ hf; exact hf
  | cons r g ih =>
    intro f hk hf
    rw [List.foldl_cons]
    refine ih _ (fun r' h' => hk r' (List.mem_cons_of_mem _ h')) ?_
    by_cases ht : pyTruthy r.value = true
    · rw [if_pos ht]
      have hkr : ¬ (k = r.key) := by
        intro he
        have hc := hk r (List.mem_cons_self _ _) he.symm
        rw [ht] at hc
        cases hc
      rw [if_neg hkr]
      exact hf
    · rw [if_neg ht]
      exact hf

theorem goldPass_skip_aux (gd : String → Option String) (k : String)
    (hgd : gd k = none) :
    ∀ (ext : List KVRecord) (st : EvalState),
      ext.foldl (goldStep gd) st =
        (ext.filter (fun r => !(r.key == k))).foldl (goldStep gd) st := by
  intro ext
  induction ext with
  | nil => intro st; rfl
  | cons r ext ih =>
    intro st
    rw [List.foldl_cons, List.filter_cons]
    by_cases hk : r.key = k
    · have hb : (!(r.key == k)) = false := by simp [hk]
      rw [hb, if_neg (by simp)]
      have hstep : goldStep gd st r = st := by
        simp only [goldStep, hk, hgd]
      rw [hstep, ih]
    · have hb : (!(r.key == k)) = true := by simp [hk]
      rw [hb, if_pos rfl, List.foldl_cons, ih]

theorem goldPass_no_key_aux (gd : String → Option String) (k : String)
    (hgd : gd k = none) :
    ∀ (ext : List KVRecord) (st : EvalState),
      (∀ p ∈ st.field_scores, p.1 ≠ k) →
      ∀ p ∈ (ext.foldl (goldStep gd) st).field_scores, p.1 ≠ k := by
  intro ext
  induction ext with
  | nil => intro st hst; exact hst
  | cons r ext ih =>
    intro st hst
    rw [List.foldl_cons]
    refine ih _ ?_
    intro p hp
    cases hgdr : gd r.key with
    | none =>
      have hstep : goldStep gd st r = st := by
        simp only [goldStep, hgdr]
      rw [hstep] at hp
      exact hst p hp
    | some ref =>
      have hkey : r.key ≠ k := by
        intro he
        rw [he, hgd] at hgdr
        cases hgdr
      simp only [goldStep, hgdr] at hp
      rcases mem_dictInsert hp with rfl | hmem
      · exact hkey
      · exact hst p hmem

theorem evaluate_field_scores_gold (now : String)
    (extracted g : List KVRecord) (hg : g ≠ []) :
    (evaluateExtractionQuality now extracted (some g)).field_scores =
      (goldPass (goldDictF g) extracted).field_scores := by
  obtain ⟨a, l, rfl⟩ := List.exists_cons_of_ne_nil hg
  rw [evaluateExtractionQuality, if_neg (by simp)]
  simp only [Option.getD_some]
  by_cases hsc :
      (goldPass (goldDictF (a :: l)) extracted).scores.isEmpty = true
  · rw [if_pos hsc]
  · rw [if_neg hsc]

/-- C10: a gold record whose value is empty or missing is omitted from the
gold index, so an extracted record whose key only matches such gold records
is a gold-lookup miss: the lookup is `None`, the report has no `FieldScore`
under that key, and the record contributes nothing to the BLEU aggregates
(dropping all such records leaves `scores` and the three aggregates
unchanged). -/
theorem gold_falsy_value_is_lookup_miss (now : String)
    (extracted g : List KVRecord) (k : String) (hg : g ≠ [])
    (hk : ∀ r ∈ g, r.key = k → pyTruthy r.value = false) :
    goldDictF g k = none ∧
    (¬ k ∈ ((evaluateExtractionQuality now extracted
      (some g)).field_scores.map Prod.fst)) ∧
    (goldPass (goldDictF g) extracted).scores =
      (goldPass (goldDictF g)
        (extracted.filter (fun r => !(r.key == k)))).scores ∧
    (evaluateExtractionQuality now extracted (some g)).avg_bleu =
      (evaluateExtractionQuality now
        (extracted.filter (fun r => !(r.key == k))) (some g)).avg_bleu ∧
    (evaluateExtractionQuality now extracted (some g)).max_bleu =
      (evaluateExtractionQuality now
        (extracted.filter (fun r => !(r.key == k))) (some g)).max_bleu ∧
    (evaluateExtractionQuality now extracted (some g)).min_bleu =
      (evaluateExtractionQuality now
        (extracted.filter (fun r => !(r.key == k))) (some g)).min_bleu := by
  have hgd : goldDictF g k = none := by
    rw [goldDictF]
    exact goldDictF_none_aux k g _ hk rfl
  have hpass : goldPass (goldDictF g) extracted =
      goldPass (goldDictF g)
        (extracted.filter (fun r => !(r.key == k))) := by
    rw [goldPass, goldPass]
    exact goldPass_skip_aux _ _ hgd extracted initState
  refine ⟨hgd, ?_, by rw [hpass], ?_, ?_, ?_⟩
  · rw [evaluate_field_scores_gold now extracted g hg]
    simp only [List.mem_map, not_exists]
    rintro p ⟨hp, hpk⟩
    exact goldPass_no_key_aux _ _ hgd extracted initState
      (fun q hq => absurd hq (List.not_mem_nil _)) p hp hpk
  all_goals
    obtain ⟨a, l, rfl⟩ := List.exists_cons_of_ne_nil hg
    have hcond : ¬ ((((some (a :: l)).getD [] : List KVRecord)).isEmpty =
        true) := by simp
    rw [evaluateExtractionQuality, if_neg hcond,
      evaluateExtractionQuality, if_neg hcond]
    simp only [Option.getD_some]
    rw [← hpass]
    cases Bool.eq_false_or_eq_true
        ((goldPass (goldDictF (a :: l)) extracted).scores.isEmpty) with
    | inl hsc => rw [if_pos hsc, if_pos hsc]
    | inr hsc =>
        have hsc' : ¬ ((goldPass (goldDictF (a :: l))
            extracted).scores.isEmpty = true) := by simp [hsc]
        rw [if_neg hsc', if_neg hsc']

theorem gold_falsy_value_is_lookup_miss_witness :
    goldDictF [⟨"b", some "y"⟩, ⟨"k", some ""⟩] "k" = none ∧
    (¬ "k" ∈ ((evaluateExtractionQuality "t"
      [⟨"k", some "v"⟩, ⟨"b", some "z"⟩]
      (some [⟨"b", some "y"⟩, ⟨"k", some ""⟩])).field_scores.map
        Prod.fst)) ∧
    (evaluateExtractionQuality "t" [⟨"k", some "v"⟩, ⟨"b", some "z"⟩]
      (some [⟨"b", some "y"⟩, ⟨"k", some ""⟩])).avg_bleu =
      (evaluateExtractionQuality "t"
        ([⟨"k", some "v"⟩, ⟨"b", some "z"⟩].filter
          (fun r => !(r.key == "k")))
        (some [⟨"b", some "y"⟩, ⟨"k", some ""⟩])).avg_bleu :=
  have h := gold_falsy_value_is_lookup_miss "t"
    [⟨"k", some "v"⟩, ⟨"b", some "z"⟩] [⟨"b", some "y"⟩, ⟨"k", some ""⟩]
    "k" (by simp) (by decide)
  ⟨h.1, h.2.1, h.2.2.2.1⟩

end BleuEval
